import Mathlib

/-!
# Verification of the `query-graph` incremental query engine

Shallow embedding of `src/lib.rs` (crate `query_graph`): a memoizing,
dependency-tracking query evaluator with iterations.

Embedding choices:

* `Node` mirrors the Rust `Node { result, changed, edges_from }` struct;
  the `HashSet<Q>` of edges is modelled as a duplicate-free `List Q`
  (constructed with `List.dedup`).
* The current-iteration map (`ConcurrentMap<Q, Arc<OnceLock<Node>>>`) is
  modelled as an association list of *initialized* cells: in the
  sequential semantics a cell becomes observable exactly when its
  `OnceLock` is initialized.  Modelled from the spec: the `map` module
  (`src/map.rs`, the `ConcurrentMap`) is not part of the provided
  sources; it is modelled per spec section 4.1 as a keyed map with
  `get` / `get_or_insert` semantics, here an association list.
* The previous-iteration map is read at up to two distinct moments by
  `Graph::resolve` (the initial `self.old.get(&q)` and the re-check
  `old.get()` in the uninitialized-cell branch).  Because the previous
  map belongs to the still-live prior iteration, its cells can be
  created and initialized concurrently with a resolve in the new
  iteration.  We therefore model the previous map as a function giving,
  for each key, the pair of cell views observed at those two moments,
  subject to the write-once well-formedness condition `OldWf`.
* The user resolver, which may re-enter `query` on the same graph, is
  deep-embedded as `ResolverProg`: a tree of context-query steps ending
  in a result, so the interpreter is executable and total (fuel-based).
* The interpreter threads the current map and additionally returns the
  list of keys whose resolver was invoked (the invocation log), used to
  state the at-most-once and no-reinvocation claims.
-/

set_option linter.unusedSectionVars false
set_option synthInstance.maxSize 4000

namespace QueryGraph

/-- The frozen outcome of resolving one key in one iteration
(Rust `struct Node<Q, R>`). `edges_from` models the `HashSet<Q>`
as a duplicate-free list. -/
structure Node (Q R : Type) where
  result : R
  changed : Bool
  edges_from : List Q
deriving DecidableEq, Repr

/-- A deep embedding of one resolver computation: it either returns a
result or queries a key through its `QueryResolver` context and
continues with the answer (Rust trait `ResolveQuery` together with
`QueryResolver::query`). -/
inductive ResolverProg (Q R : Type) where
  | pure (r : R)
  | query (q : Q) (k : R → ResolverProg Q R)

/-- The observable contents of the current-iteration map: the
initialized cells, most recently initialized first. -/
abbrev St (Q R : Type) := List (Q × Node Q R)

/-- What one read of a previous-iteration cell can observe: no cell for
the key, a cell whose `OnceLock` is still empty, or an initialized
node. -/
inductive CellView (Q R : Type) where
  | absent
  | uninit
  | init (node : Node Q R)
deriving DecidableEq, Repr

/-- The previous-iteration map as seen by one resolve of one key: for
each key, the cell view at the moment `resolve` first consults the old
map, and the view at the later re-check / node-production moment. -/
abbrev OldView (Q R : Type) := Q → CellView Q R × CellView Q R

/-- Cells are write-once: a view can only evolve from `absent` towards
`init`, and an initialized node never changes. -/
def CellView.le {Q R : Type} : CellView Q R → CellView Q R → Prop
  | .absent, _ => True
  | .uninit, .absent => False
  | .uninit, _ => True
  | .init n, .init m => n = m
  | .init _, _ => False

/-- Well-formedness of a previous-map observation: each key's second
view is a write-once evolution of its first view. -/
def OldWf {Q R : Type} (old : OldView Q R) : Prop :=
  ∀ q, CellView.le (old q).1 (old q).2

variable {Q R : Type} [DecidableEq Q] [DecidableEq R]

/-- Lookup of an initialized cell in the current map
(`ConcurrentMap::get` followed by `OnceLock::get`). -/
def findNode : St Q R → Q → Option (Node Q R)
  | [], _ => none
  | (p, n) :: rest, q => if q = p then some n else findNode rest q

/-- The result of one interpreter step: the node obtained, the grown
current map, and the log of keys whose resolver ran (in invocation
order); `none` means the fuel ran out (in the Rust code this can only
correspond to a cyclic query, which deadlocks). -/
abbrev Res (Q R : Type) := Option (Node Q R × St Q R × List Q)

/-- Run a resolver program against a query oracle `qf` (the graph's
`query`, partially applied).  Mirrors `QueryResolver::query`: each
`query q k` step queries the graph for `q`, records `q` into the edge
accumulator, and continues with the returned result.  Returns the
program's result, the recorded edge keys, the grown map, and the
resolver-invocation log. -/
def runProg (qf : Q → St Q R → Res Q R) :
    ResolverProg Q R → St Q R → Option (R × List Q × St Q R × List Q)
  | .pure r, st => some (r, [], st, [])
  | .query q k, st =>
    match qf q st with
    | none => none
    | some (n, st1, lg1) =>
      match runProg qf (k n.result) st1 with
      | none => none
      | some (r, es, st2, lg2) => some (r, q :: es, st2, lg1 ++ lg2)

/-- Demand every parent key on the current iteration and report whether
any of their nodes is marked changed (the `par_iter().any(...)` over
`old_node.edges_from` in `Graph::resolve`, sequentialized without
short-circuiting). -/
def validateParents (qf : Q → St Q R → Res Q R) :
    List Q → St Q R → Option (Bool × St Q R × List Q)
  | [], st => some (false, st, [])
  | p :: ps, st =>
    match qf p st with
    | none => none
    | some (n, st1, lg1) =>
      match validateParents qf ps st1 with
      | none => none
      | some (b, st2, lg2) => some ((n.changed || b), st2, lg1 ++ lg2)

/-- The common compute branch of `Graph::resolve`: build a fresh
`QueryResolver` context, run the user resolver for `q`, and freeze a
node whose edge set is the de-duplicated list of keys the resolver
queried through the context; `mk` computes the `changed` flag from the
fresh result.  The key `q` is prepended to the invocation log. -/
def computeNode (qf : Q → St Q R → Res Q R) (res : Q → ResolverProg Q R)
    (q : Q) (mk : R → Bool) (st : St Q R) : Res Q R :=
  match runProg qf (res q) st with
  | none => none
  | some (r, es, st1, lg1) => some (⟨r, mk r, es.dedup⟩, st1, q :: lg1)

/-- Embedding of `Graph::resolve`: dispatch on the previous-iteration cell for `q`.
`(old q).1` is what `self.old.get(&q)` / `old.get()` observe at the
start; `(old q).2` is what the re-check in the uninitialized branch
observes.  The five cases A-E of the spec appear in source order. -/
def resolveStep (res : Q → ResolverProg Q R) (old : OldView Q R)
    (qf : Q → St Q R → Res Q R) (q : Q) (st : St Q R) : Res Q R :=
  match (old q).1 with
  | .init old_node =>
    if old_node.edges_from = [] then
      -- case C: a root node; resolve again and compare.
      computeNode qf res q (fun r => decide (r ≠ old_node.result)) st
    else
      match validateParents qf old_node.edges_from st with
      | none => none
      | some (any_changed, st1, lg1) =>
        if any_changed then
          -- case E: some dependency changed; resolve again and compare.
          match computeNode qf res q (fun r => decide (r ≠ old_node.result)) st1 with
          | none => none
          | some (n, st2, lg2) => some (n, st2, lg1 ++ lg2)
        else
          -- case D: the old result is still valid; reuse it.
          some (⟨old_node.result, false, old_node.edges_from⟩, st1, lg1)
  | .uninit =>
    -- case B: old cell exists but is unresolved; compute from scratch,
    -- then re-check the old cell to decide the changed flag.
    computeNode qf res q
      (fun r =>
        match (old q).2 with
        | .init old_node => decide (r ≠ old_node.result)
        | _ => true)
      st
  | .absent =>
    -- case A: the query is new; resolve from scratch, changed is false.
    computeNode qf res q (fun _ => false) st

/-- Embedding of `Graph::query` / the cell's `get_or_init`, fuel-indexed: return the
memoized node if the cell for `q` is initialized, otherwise run
`resolve` and publish the node.  Fuel decreases at each resolver
re-entry; `none` models the deadlock on cyclic queries. -/
def queryF (res : Q → ResolverProg Q R) (old : OldView Q R) :
    Nat → Q → St Q R → Res Q R
  | 0 => fun _ _ => none
  | fuel + 1 => fun q st =>
    match findNode st q with
    | some n => some (n, st, [])
    | none =>
      match resolveStep res old (queryF res old fuel) q st with
      | none => none
      | some (n, st1, lg) => some (n, (q, n) :: st1, lg)

/-- One graph iteration (Rust `struct Graph<Q, R>`): the current map
`new`, the previous map `old` (an alias of the prior iteration's
current map), and the resolver. -/
structure Graph (Q R : Type) where
  new : St Q R
  old : St Q R
  resolver : Q → ResolverProg Q R

/-- The previous map of a sequentially used iteration: no cell of it is
being initialized concurrently, so both observation moments see the
same view. -/
def stableView (m : St Q R) : OldView Q R :=
  fun q =>
    match findNode m q with
    | some n => (.init n, .init n)
    | none => (.absent, .absent)

/-- Embedding of `Graph::new`: a first iteration with empty current and previous
maps. -/
def Graph.mkNew (res : Q → ResolverProg Q R) : Graph Q R :=
  ⟨[], [], res⟩

/-- Embedding of `Graph::query` at the iteration level: returns the result clone,
the iteration with its grown current map, and the resolver-invocation
log. -/
def Graph.query (g : Graph Q R) (fuel : Nat) (q : Q) :
    Option (R × Graph Q R × List Q) :=
  match queryF g.resolver (stableView g.old) fuel q g.new with
  | none => none
  | some (n, st1, lg) => some (n.result, { g with new := st1 }, lg)

/-- Embedding of `Graph::increment`: a new iteration whose previous map is the prior
iteration's current map and whose current map is fresh and empty. -/
def Graph.increment (g : Graph Q R) (res : Q → ResolverProg Q R) : Graph Q R :=
  ⟨[], g.new, res⟩

/-- Every initialized cell of a current map carries `changed = false`. -/
def UnchangedAll (st : St Q R) : Prop :=
  ∀ p ∈ st, p.2.changed = false

/-! A model of the unsynchronized edge set under two threads.

`QueryResolver` stores its edge set in a `RefCell<HashSet<Q>>` and is
declared `unsafe impl Send + Sync`, so two rayon worker threads of one
resolver invocation may run `edges_from.borrow_mut().insert(q)`
concurrently.  We model one such insert as an unsynchronized
read-modify-write of a shared list (a sequentially consistent
approximation; the actual concurrent `RefCell` access is a data race,
which can only behave worse). -/

/-- One step of the two-thread interleaving: a thread reads the shared
edge set into its local copy, or writes back its local copy with its
key inserted. -/
inductive RaceOp where
  | readA
  | readB
  | writeA
  | writeB
deriving DecidableEq, Repr

/-- The shared edge set plus each thread's local read copy. -/
structure RaceState (Q : Type) where
  shared : List Q
  localA : List Q
  localB : List Q
deriving DecidableEq, Repr

/-- Embedding of `HashSet::insert` on the list model of the edge set. -/
def insertKey (q : Q) (s : List Q) : List Q :=
  if q ∈ s then s else q :: s

/-- Execute one interleaving step: thread A inserts key `a`, thread B
inserts key `b`, each via read-then-write on the shared set. -/
def raceStep (a b : Q) (st : RaceState Q) : RaceOp → RaceState Q
  | .readA => { st with localA := st.shared }
  | .readB => { st with localB := st.shared }
  | .writeA => { st with shared := insertKey a st.localA }
  | .writeB => { st with shared := insertKey b st.localB }

/-- Execute a whole interleaving of the two unsynchronized inserts. -/
def runRace (a b : Q) (ops : List RaceOp) (st : RaceState Q) : RaceState Q :=
  ops.foldl (raceStep a b) st

/-! Concrete instances used by witnesses and counterexamples. -/

/-- A resolver that answers every key with `5` and queries nothing. -/
def resFive : Nat → ResolverProg Nat Nat := fun _ => .pure 5

/-- A resolver that answers every key with `6` and queries nothing. -/
def resSix : Nat → ResolverProg Nat Nat := fun _ => .pure 6

/-- A previous map with no cell for any key, at either observation
moment (the situation of a first iteration). -/
def allAbsent : OldView Nat Nat := fun _ => (CellView.absent, CellView.absent)

/-- A previous map whose cell for every key is absent when `resolve`
first consults the map but initialized (result `99`) by the time the
new node is produced: the prior iteration initialized the cell
concurrently with the resolve. -/
def oldLate : OldView Nat Nat :=
  fun _ => (CellView.absent, CellView.init ⟨99, false, []⟩)

/-- A previous map whose cell for every key exists but is uninitialized
at the first consult and initialized (result `9`) by the re-check. -/
def oldUninitW : OldView Nat Nat :=
  fun _ => (CellView.uninit, CellView.init ⟨9, false, []⟩)

/-- A previous map whose cell for every key holds an initialized root
node (no dependencies) with result `5`. -/
def oldRootW : OldView Nat Nat :=
  fun _ => (CellView.init ⟨5, false, []⟩, CellView.init ⟨5, false, []⟩)

/-- A stable previous map: key `0` has result `5` with dependency on
key `1`; key `1` is a root with result `7`. -/
def oldDepW : OldView Nat Nat := fun q =>
  if q = 0 then (CellView.init ⟨5, true, [1]⟩, CellView.init ⟨5, true, [1]⟩)
  else if q = 1 then (CellView.init ⟨7, false, []⟩, CellView.init ⟨7, false, []⟩)
  else (CellView.absent, CellView.absent)

/-- The resolver matching `oldDepW`: key `1` still resolves to `7`
(unchanged); any other key would resolve to `999` if it were ever
re-resolved. -/
def resDepW : Nat → ResolverProg Nat Nat := fun q =>
  if q = 1 then .pure 7 else .pure 999

/-- A resolver whose computation for any key queries key `1` twice and
then key `2`, returning `3`: used to exhibit edge de-duplication. -/
def resDup : Nat → ResolverProg Nat Nat :=
  fun _ => .query 1 (fun _ => .query 1 (fun _ => .query 2 (fun _ => .pure 3)))

/-- A one-node graph iteration: its current map holds key `0` with
result `5` and no dependencies. -/
def gOne : Graph Nat Nat := ⟨[(0, ⟨5, false, []⟩)], [], resFive⟩

/-! Helper lemmas. -/

theorem findNode_mem : ∀ {st : St Q R} {q : Q} {n : Node Q R},
    findNode st q = some n → (q, n) ∈ st := by
  intro st
  induction st with
  | nil => intro q n h; simp [findNode] at h
  | cons hd rest ih =>
    intro q n h
    obtain ⟨p, m⟩ := hd
    rw [findNode] at h
    by_cases hq : q = p
    · subst hq
      simp at h
      subst h
      exact List.mem_cons_self _ _
    · simp [hq] at h
      exact List.mem_cons_of_mem _ (ih h)

theorem queryF_succ_eq (res : Q → ResolverProg Q R) (old : OldView Q R)
    (fuel : Nat) (q : Q) (st : St Q R) :
    queryF res old (fuel + 1) q st =
      (match findNode st q with
       | some n => some (n, st, [])
       | none =>
         match resolveStep res old (queryF res old fuel) q st with
         | none => none
         | some (n, st1, lg) => some (n, (q, n) :: st1, lg)) := rfl

theorem queryF_found {res : Q → ResolverProg Q R} {old : OldView Q R}
    {fuel : Nat} {q : Q} {st st1 : St Q R} {n : Node Q R} {lg : List Q}
    (h : queryF res old fuel q st = some (n, st1, lg)) :
    findNode st1 q = some n := by
  cases fuel with
  | zero => simp [queryF] at h
  | succ fuel =>
    rw [queryF_succ_eq] at h
    cases hf : findNode st q with
    | some m =>
      rw [hf] at h
      simp at h
      obtain ⟨h1, h2, _⟩ := h
      rw [← h2, hf, h1]
    | none =>
      rw [hf] at h
      cases hr : resolveStep res old (queryF res old fuel) q st with
      | none => rw [hr] at h; simp at h
      | some out =>
        obtain ⟨n0, st0, lg0⟩ := out
        rw [hr] at h
        simp at h
        obtain ⟨h1, h2, _⟩ := h
        rw [← h2, ← h1, findNode]
        simp

theorem computeNode_some {qf : Q → St Q R → Res Q R}
    {res : Q → ResolverProg Q R} {q : Q} {mk : R → Bool} {st st1 : St Q R}
    {n : Node Q R} {lg : List Q}
    (h : computeNode qf res q mk st = some (n, st1, lg)) :
    ∃ r es stx lgx, runProg qf (res q) st = some (r, es, stx, lgx) ∧
      n = ⟨r, mk r, es.dedup⟩ ∧ st1 = stx ∧ lg = q :: lgx := by
  unfold computeNode at h
  cases hr : runProg qf (res q) st with
  | none => rw [hr] at h; simp at h
  | some out =>
    obtain ⟨r, es, stx, lgx⟩ := out
    rw [hr] at h
    simp at h
    obtain ⟨h1, h2, h3⟩ := h
    exact ⟨r, es, stx, lgx, rfl, h1.symm, h2.symm, h3.symm⟩

theorem resolveStep_changed_false {res : Q → ResolverProg Q R}
    {old : OldView Q R} {qf : Q → St Q R → Res Q R} {q : Q}
    {st st1 : St Q R} {n m : Node Q R} {lg : List Q}
    (h : resolveStep res old qf q st = some (n, st1, lg))
    (hle : CellView.le (old q).1 (old q).2)
    (hpresent : (old q).1 ≠ CellView.absent)
    (hinit : (old q).2 = CellView.init m)
    (hch : n.changed = false) :
    n.result = m.result := by
  unfold resolveStep at h
  cases hv : (old q).1 with
  | absent => exact absurd hv hpresent
  | uninit =>
    rw [hv] at h
    obtain ⟨r, es, stx, lgx, _, hn, _, _⟩ := computeNode_some h
    rw [hinit] at hn
    subst hn
    simp only at hch ⊢
    simpa using of_decide_eq_false hch
  | init m0 =>
    have hm0 : m0 = m := by
      rw [hv, hinit] at hle
      exact hle
    subst hm0
    rw [hv] at h
    dsimp only at h
    by_cases he : m0.edges_from = []
    · rw [if_pos he] at h
      obtain ⟨r, es, stx, lgx, _, hn, _, _⟩ := computeNode_some h
      subst hn
      simp only at hch ⊢
      simpa using of_decide_eq_false hch
    · rw [if_neg he] at h
      cases hval : validateParents qf m0.edges_from st with
      | none => rw [hval] at h; simp at h
      | some out =>
        obtain ⟨b, stv, lgv⟩ := out
        rw [hval] at h
        dsimp only at h
        cases b with
        | true =>
          rw [if_pos rfl] at h
          cases hc : computeNode qf res q (fun r => decide (r ≠ m0.result)) stv with
          | none => rw [hc] at h; simp at h
          | some out2 =>
            obtain ⟨n2, st2, lg2⟩ := out2
            rw [hc] at h
            simp at h
            obtain ⟨hn2, _, _⟩ := h
            obtain ⟨r, es, stx, lgx, _, hn, _, _⟩ := computeNode_some hc
            rw [← hn2] at hch ⊢
            subst hn
            simp only at hch ⊢
            simpa using of_decide_eq_false hch
        | false =>
          simp only [if_neg (by simp : ¬(false = true))] at h
          simp at h
          obtain ⟨hn, _, _⟩ := h
          rw [← hn]

theorem queryF_fresh {res : Q → ResolverProg Q R} {old : OldView Q R}
    {fuel : Nat} {q : Q} {st st1 : St Q R} {n : Node Q R} {lg : List Q}
    (hq : queryF res old (fuel + 1) q st = some (n, st1, lg))
    (hfresh : findNode st q = none) :
    ∃ st0, resolveStep res old (queryF res old fuel) q st = some (n, st0, lg) ∧
      st1 = (q, n) :: st0 := by
  rw [queryF_succ_eq, hfresh] at hq
  cases hr : resolveStep res old (queryF res old fuel) q st with
  | none => rw [hr] at hq; simp at hq
  | some out =>
    obtain ⟨n0, st0, lg0⟩ := out
    rw [hr] at hq
    simp only [Option.some.injEq, Prod.mk.injEq] at hq
    obtain ⟨h1, h2, h3⟩ := hq
    exact ⟨st0, by rw [h1, h3], by rw [← h2, h1]⟩

theorem resolveStep_changed_false_cases {res : Q → ResolverProg Q R}
    {old : OldView Q R} {qf : Q → St Q R → Res Q R} {q : Q}
    {st st1 : St Q R} {n : Node Q R} {lg : List Q}
    (h : resolveStep res old qf q st = some (n, st1, lg))
    (hch : n.changed = false) :
    (old q).1 = CellView.absent ∨ (old q).1 = CellView.uninit ∨
      ∃ m, (old q).1 = CellView.init m ∧ m.result = n.result := by
  cases hv : (old q).1 with
  | absent => exact Or.inl rfl
  | uninit => exact Or.inr (Or.inl rfl)
  | init m0 =>
    refine Or.inr (Or.inr ⟨m0, rfl, ?_⟩)
    unfold resolveStep at h
    rw [hv] at h
    dsimp only at h
    by_cases he : m0.edges_from = []
    · rw [if_pos he] at h
      obtain ⟨r, es, stx, lgx, _, hn, _, _⟩ := computeNode_some h
      subst hn
      simp only at hch ⊢
      have h5 : r = m0.result := by simpa using of_decide_eq_false hch
      exact h5.symm
    · rw [if_neg he] at h
      cases hval : validateParents qf m0.edges_from st with
      | none => rw [hval] at h; simp at h
      | some out =>
        obtain ⟨b, stv, lgv⟩ := out
        rw [hval] at h
        dsimp only at h
        cases b with
        | true =>
          rw [if_pos rfl] at h
          cases hc : computeNode qf res q (fun r => decide (r ≠ m0.result)) stv with
          | none => rw [hc] at h; simp at h
          | some out2 =>
            obtain ⟨n2, st2, lg2⟩ := out2
            rw [hc] at h
            simp at h
            obtain ⟨hn2, _, _⟩ := h
            obtain ⟨r, es, stx, lgx, _, hn, _, _⟩ := computeNode_some hc
            rw [← hn2] at hch ⊢
            subst hn
            simp only at hch ⊢
            have h5 : r = m0.result := by simpa using of_decide_eq_false hch
            exact h5.symm
        | false =>
          simp only [if_neg (by simp : ¬(false = true))] at h
          simp at h
          obtain ⟨hn, _, _⟩ := h
          rw [← hn]

/-! Claim theorems. -/

/-- Claim C1 (amended). Change-flag soundness, with the previous cell
required to be already *present* when `resolve` first consults the
previous map: if the node freshly produced for `q` has
`changed = false`, the previous cell for `q` was present at the first
consult, and it is initialized with node `m` by the time the new node
is produced, then the new node's result equals `m.result`.  (As
originally stated — previous node merely initialized by production
time — the claim fails on case A of `Graph::resolve`, see the
counterexample.) -/
theorem change_flag_soundness (res : Q → ResolverProg Q R)
    (old : OldView Q R) (fuel : Nat) (q : Q) (st st1 : St Q R)
    (n m : Node Q R) (lg : List Q)
    (hwf : OldWf old)
    (hq : queryF res old (fuel + 1) q st = some (n, st1, lg))
    (hfresh : findNode st q = none)
    (hpresent : (old q).1 ≠ CellView.absent)
    (hinit : (old q).2 = CellView.init m)
    (hch : n.changed = false) :
    n.result = m.result := by
  obtain ⟨st0, hr, _⟩ := queryF_fresh hq hfresh
  exact resolveStep_changed_false hr (hwf q) hpresent hinit hch

/-- Claim C1, counterexample to the claim as stated. A previous cell
that is absent when `resolve` first consults the previous map, but
initialized (with result `99`) by the time the new node is produced:
case A never re-checks, publishes `changed = false`, yet the new result
`5` differs from the previous result `99`.  The old-map evolution is
write-once well-formed. -/
theorem change_flag_soundness_cex :
    OldWf oldLate ∧
    queryF resFive oldLate 1 0 [] =
      some (⟨5, false, []⟩, [(0, ⟨5, false, []⟩)], [0]) ∧
    (oldLate 0).2 = CellView.init ⟨99, false, []⟩ ∧
    (5 : Nat) ≠ 99 :=
  ⟨fun _ => trivial, rfl, rfl, by decide⟩

/-- Claim C1, witness. The amended theorem applied to a concrete case-D
reuse: key `0`'s previous node (result `5`, parent `1`) is reused
because parent `1` revalidates unchanged, and its result indeed equals
the previous result. -/
theorem change_flag_soundness_witness : (5 : Nat) = 5 :=
  change_flag_soundness resDepW oldDepW 1 0 []
    [(0, ⟨5, false, [1]⟩), (1, ⟨7, false, []⟩)]
    ⟨5, false, [1]⟩ ⟨5, true, [1]⟩ [1]
    (by
      intro q
      by_cases h0 : q = 0
      · simp [OldWf, oldDepW, h0, CellView.le]
      · by_cases h1 : q = 1
        · simp [OldWf, oldDepW, h0, h1, CellView.le]
        · simp [OldWf, oldDepW, h0, h1, CellView.le])
    (by decide) (by decide) (by decide) (by decide) (by decide)

/-- Claim C8 (amended). Invariant 2, weakened by the exception that the
claim's own invariant 3 requires: a freshly produced node with
`changed = false` either had no previous cell at the first consult of
the previous map, or that cell was still uninitialized, or the
initialized previous node observed there has the same result. -/
theorem invariant_two (res : Q → ResolverProg Q R) (old : OldView Q R)
    (fuel : Nat) (q : Q) (st st1 : St Q R) (n : Node Q R) (lg : List Q)
    (hq : queryF res old (fuel + 1) q st = some (n, st1, lg))
    (hfresh : findNode st q = none)
    (hch : n.changed = false) :
    (old q).1 = CellView.absent ∨ (old q).1 = CellView.uninit ∨
      ∃ m, (old q).1 = CellView.init m ∧ m.result = n.result := by
  obtain ⟨st0, hr, _⟩ := queryF_fresh hq hfresh
  exact resolveStep_changed_false_cases hr hch

/-- Claim C8, counterexample to the claim as stated. In a first
iteration (previous map empty), `query 0` produces a node with
`changed = false`, yet no node for key `0` exists in the previous map
at all, so the existential of invariant 2 fails. -/
theorem invariant_two_cex :
    Graph.query (Graph.mkNew resFive) 1 0 =
      some (5, ⟨[(0, ⟨5, false, []⟩)], [], resFive⟩, [0]) ∧
    (Graph.mkNew resFive).old = ([] : St Nat Nat) ∧
    findNode (Graph.mkNew resFive).old 0 = none ∧
    (Node.mk 5 false ([] : List Nat)).changed = false :=
  ⟨rfl, rfl, rfl, rfl⟩

/-- Claim C8, witness. The amended invariant applied to the same
concrete first-iteration production: the absent-cell disjunct holds. -/
theorem invariant_two_witness :
    (allAbsent 0).1 = CellView.absent ∨ (allAbsent 0).1 = CellView.uninit ∨
      ∃ m, (allAbsent 0).1 = CellView.init m ∧
        m.result = (Node.mk 5 false ([] : List Nat)).result :=
  invariant_two resFive allAbsent 0 0 [] [(0, ⟨5, false, []⟩)]
    ⟨5, false, []⟩ [0] (by decide) (by decide) (by decide)

/-- Claim C3. Root revalidation (case C): when the previous node for `q`
is initialized with an empty edge set, resolving `q` re-invokes the
resolver for `q` (`q` is in the invocation log) and the new node is
marked changed exactly when the freshly computed result differs from
the previous result. -/
theorem root_revalidation (res : Q → ResolverProg Q R) (old : OldView Q R)
    (fuel : Nat) (q : Q) (st st1 : St Q R) (n m : Node Q R) (lg : List Q)
    (hq : queryF res old (fuel + 1) q st = some (n, st1, lg))
    (hfresh : findNode st q = none)
    (hroot : (old q).1 = CellView.init m)
    (hempty : m.edges_from = []) :
    q ∈ lg ∧ (n.changed = true ↔ n.result ≠ m.result) := by
  obtain ⟨st0, hr, _⟩ := queryF_fresh hq hfresh
  unfold resolveStep at hr
  rw [hroot] at hr
  dsimp only at hr
  rw [if_pos hempty] at hr
  obtain ⟨r, es, stx, lgx, hrun, hn, hst, hlg⟩ := computeNode_some hr
  constructor
  · rw [hlg]; exact List.mem_cons_self _ _
  · subst hn
    simp [decide_eq_true_eq]

/-- Claim C4. Concurrent-overwrite recovery (case B): when the previous
cell for `q` exists but is uninitialized at the first consult, the
result is computed from scratch by running the resolver (`q` enters
the invocation log and the node's result is the resolver run's
output); the `changed` flag is then decided by the re-check of the
previous cell: comparison with the previous result if the cell has
meanwhile become initialized, `true` otherwise. -/
theorem uninit_recovery (res : Q → ResolverProg Q R) (old : OldView Q R)
    (fuel : Nat) (q : Q) (st st1 : St Q R) (n : Node Q R) (lg : List Q)
    (hq : queryF res old (fuel + 1) q st = some (n, st1, lg))
    (hfresh : findNode st q = none)
    (huninit : (old q).1 = CellView.uninit) :
    q ∈ lg ∧
    (∃ es stx lgx,
      runProg (queryF res old fuel) (res q) st = some (n.result, es, stx, lgx)) ∧
    (∀ m, (old q).2 = CellView.init m → (n.changed = true ↔ n.result ≠ m.result)) ∧
    ((old q).2 = CellView.absent ∨ (old q).2 = CellView.uninit → n.changed = true) := by
  obtain ⟨st0, hr, _⟩ := queryF_fresh hq hfresh
  unfold resolveStep at hr
  rw [huninit] at hr
  dsimp only at hr
  obtain ⟨r, es, stx, lgx, hrun, hn, hst, hlg⟩ := computeNode_some hr
  refine ⟨?_, ?_, ?_, ?_⟩
  · rw [hlg]; exact List.mem_cons_self _ _
  · refine ⟨es, stx, lgx, ?_⟩
    rw [hrun]
    subst hn
    rfl
  · intro m hm
    subst hn
    simp only
    rw [hm]
    simp [decide_eq_true_eq]
  · intro hcase
    subst hn
    simp only
    cases hcase with
    | inl hc => rw [hc]
    | inr hc => rw [hc]

/-- Claim C2. Reuse (case D): when the previous node for `q` is
initialized with a non-empty edge set and demanding every parent on
the current iteration finds none of them marked changed (the
formalization of "no key in the transitive closure of the previous
edges is marked changed in `G`", which in the code is consulted
through the direct parents' memoized `changed` flags), `query q`
publishes a node carrying the previous result, the previous node's
very edge set, and `changed = false`, and the invocation log is
exactly the validation log — the resolver is not invoked for `q`. -/
theorem reuse_invariant (res : Q → ResolverProg Q R) (old : OldView Q R)
    (fuel : Nat) (q : Q) (st st1 : St Q R) (lg1 : List Q) (m : Node Q R)
    (hfresh : findNode st q = none)
    (hinit : (old q).1 = CellView.init m)
    (hne : m.edges_from ≠ [])
    (hval : validateParents (queryF res old fuel) m.edges_from st =
      some (false, st1, lg1)) :
    queryF res old (fuel + 1) q st =
      some (⟨m.result, false, m.edges_from⟩,
        (q, (⟨m.result, false, m.edges_from⟩ : Node Q R)) :: st1, lg1) := by
  rw [queryF_succ_eq, hfresh]
  unfold resolveStep
  rw [hinit]
  dsimp only
  rw [if_neg hne, hval]
  rfl

/-- Claim C2, witness. Key `0` (previous result `5`, parent `1`) is
reused after parent `1` revalidates to the same result `7`: the
returned node carries result `5`, the inherited edge set `[1]`, and
`changed = false`, and the resolver runs only for key `1`. -/
theorem reuse_invariant_witness :
    queryF resDepW oldDepW 2 0 [] =
      some (⟨5, false, [1]⟩,
        [(0, (⟨5, false, [1]⟩ : Node Nat Nat)), (1, ⟨7, false, []⟩)], [1]) :=
  reuse_invariant resDepW oldDepW 1 0 [] [(1, ⟨7, false, []⟩)] [1]
    ⟨5, true, [1]⟩ (by decide) (by decide) (by decide) (by decide)

/-- Claim C3, witness. A previous root node with result `5` is
re-resolved to `6`: the resolver runs for the key and the node is
marked changed since `6 ≠ 5`. -/
theorem root_revalidation_witness :
    (0 : Nat) ∈ [0] ∧
    ((Node.mk 6 true ([] : List Nat)).changed = true ↔
      (Node.mk 6 true ([] : List Nat)).result ≠
        (Node.mk 5 false ([] : List Nat)).result) :=
  root_revalidation resSix oldRootW 0 0 [] [(0, ⟨6, true, []⟩)]
    ⟨6, true, []⟩ ⟨5, false, []⟩ [0] (by decide) (by decide) (by decide)
    (by decide)

/-- Claim C4, witness. A previous cell uninitialized at the first
consult and initialized with result `9` at the re-check: the resolver
runs for the key, recomputes `5`, and the node is marked changed since
`5 ≠ 9`. -/
theorem uninit_recovery_witness :
    (0 : Nat) ∈ [0] ∧
    ((Node.mk 5 true ([] : List Nat)).changed = true ↔
      (Node.mk 5 true ([] : List Nat)).result ≠
        (Node.mk 9 false ([] : List Nat)).result) := by
  have h := uninit_recovery resFive oldUninitW 0 0 [] [(0, ⟨5, true, []⟩)]
    ⟨5, true, []⟩ [0] (by decide) (by decide) (by decide)
  exact ⟨h.1, h.2.2.1 ⟨9, false, []⟩ (by decide)⟩

/-- Claim C7. Edge-set faithfulness: a node built by the compute branch
of `resolve` (the only place the resolver is invoked) stores as
`edges_from` exactly the set of distinct keys the resolver queried
through its `QueryResolver` context during that invocation: the stored
list is the de-duplication of the recorded query keys, has no
duplicates, and has the same members; the log records `q` as the
invocation. -/
theorem edge_set_faithful (qf : Q → St Q R → Res Q R)
    (res : Q → ResolverProg Q R) (q : Q) (mk : R → Bool)
    (st st1 stx : St Q R) (n : Node Q R) (lg : List Q) (r : R)
    (es lgx : List Q)
    (hrun : runProg qf (res q) st = some (r, es, stx, lgx))
    (hc : computeNode qf res q mk st = some (n, st1, lg)) :
    n.result = r ∧ n.edges_from = es.dedup ∧ n.edges_from.Nodup ∧
    (∀ x, x ∈ n.edges_from ↔ x ∈ es) ∧ lg = q :: lgx ∧ st1 = stx := by
  obtain ⟨r2, es2, stx2, lgx2, hrun2, hn, hst, hlg⟩ := computeNode_some hc
  rw [hrun] at hrun2
  simp only [Option.some.injEq, Prod.mk.injEq] at hrun2
  obtain ⟨he1, he2, he3, he4⟩ := hrun2
  subst he1; subst he2; subst he3; subst he4
  subst hn
  refine ⟨rfl, rfl, List.nodup_dedup es, fun x => List.mem_dedup, hlg, hst⟩

/-- Claim C7, witness. A resolver invocation that queries key `1`
twice and key `2` once: the stored edge set is `[1, 2]`, the
de-duplication of the recorded keys `[1, 1, 2]`, with the same
membership. -/
theorem edge_set_faithful_witness :
    (Node.mk 3 false [1, 2] : Node Nat Nat).edges_from =
      ([1, 1, 2] : List Nat).dedup ∧
    ((1 : Nat) ∈ (Node.mk 3 false [1, 2] : Node Nat Nat).edges_from ↔
      (1 : Nat) ∈ ([1, 1, 2] : List Nat)) := by
  have h := edge_set_faithful (queryF resFive allAbsent 1) resDup 0
    (fun _ => false) []
    [(2, (⟨5, false, []⟩ : Node Nat Nat)), (1, ⟨5, false, []⟩)]
    [(2, (⟨5, false, []⟩ : Node Nat Nat)), (1, ⟨5, false, []⟩)]
    ⟨3, false, [1, 2]⟩ [0, 1, 2] 3 [1, 1, 2] [1, 2]
    (by decide) (by decide)
  exact ⟨h.2.1, h.2.2.2.1 1⟩

/-- Claim C5. Idempotence within an iteration: if `G.query q` returned
result `r` and the (state-passing) iteration `g1`, then querying `g1`
for `q` again returns the same result `r`, leaves the iteration
unchanged, and invokes no resolver at all (empty invocation log): the
second call reads the memoized node. -/
theorem query_idempotent (g : Graph Q R) (fuel : Nat) (q : Q) (r : R)
    (g1 : Graph Q R) (lg : List Q)
    (h : Graph.query g fuel q = some (r, g1, lg)) (fuel2 : Nat) :
    Graph.query g1 (fuel2 + 1) q = some (r, g1, []) := by
  unfold Graph.query at h
  cases hqf : queryF g.resolver (stableView g.old) fuel q g.new with
  | none => rw [hqf] at h; simp at h
  | some o =>
    obtain ⟨n, st1, lg0⟩ := o
    rw [hqf] at h
    simp only [Option.some.injEq, Prod.mk.injEq] at h
    obtain ⟨h1, h2, h3⟩ := h
    have hfind : findNode st1 q = some n := queryF_found hqf
    subst h2
    unfold Graph.query
    dsimp only
    rw [queryF_succ_eq, hfind]
    dsimp only
    rw [h1]

/-- Claim C5, witness. After the first query of key `0` on a fresh
graph produced `gOne`, a second query returns the same result `5` with
the iteration unchanged and an empty invocation log. -/
theorem query_idempotent_witness :
    Graph.query gOne 1 0 = some (5, gOne, []) :=
  query_idempotent (Graph.mkNew resFive) 1 0 5 gOne [0] (by rfl) 0

/-- Claim C6. Increment frame property: `increment` yields an iteration
whose current map is fresh and empty, whose previous map is (an alias
of) `g`'s current map, and whose resolver is the new one; moreover any
query on the new iteration grows only its own current map — the
resulting iteration still has `g`'s current map, untouched, as its
previous map (so the prior iteration `g`, a pure value here, keeps
serving the same results). -/
theorem increment_frame (g : Graph Q R) (res2 : Q → ResolverProg Q R)
    (fuel : Nat) (q : Q) (out : R × Graph Q R × List Q)
    (h : Graph.query (Graph.increment g res2) fuel q = some out) :
    (Graph.increment g res2).new = [] ∧
    (Graph.increment g res2).old = g.new ∧
    (Graph.increment g res2).resolver = res2 ∧
    out.2.1.old = g.new ∧ out.2.1.resolver = res2 := by
  unfold Graph.query at h
  cases hqf : queryF (Graph.increment g res2).resolver
      (stableView (Graph.increment g res2).old) fuel q
      (Graph.increment g res2).new with
  | none => rw [hqf] at h; simp at h
  | some o =>
    obtain ⟨n, st1, lg0⟩ := o
    rw [hqf] at h
    simp only [Option.some.injEq] at h
    subst h
    exact ⟨rfl, rfl, rfl, rfl, rfl⟩

/-- Claim C6, witness. Incrementing the one-node iteration `gOne` with
the resolver `resSix` and querying key `0`: the new iteration starts
empty with `gOne`'s current map as previous map, and after the query
(which recomputes the root as `6`) the previous map is still exactly
`gOne`'s current map. -/
theorem increment_frame_witness :
    (Graph.increment gOne resSix).new = ([] : St Nat Nat) ∧
    (Graph.increment gOne resSix).old = gOne.new ∧
    (Graph.increment gOne resSix).resolver = resSix ∧
    ((6 : Nat),
      (⟨[(0, ⟨6, true, []⟩)], [(0, ⟨5, false, []⟩)], resSix⟩ : Graph Nat Nat),
      ([0] : List Nat)).2.1.old = gOne.new ∧
    ((6 : Nat),
      (⟨[(0, ⟨6, true, []⟩)], [(0, ⟨5, false, []⟩)], resSix⟩ : Graph Nat Nat),
      ([0] : List Nat)).2.1.resolver = resSix :=
  increment_frame gOne resSix 1 0
    (6, ⟨[(0, ⟨6, true, []⟩)], [(0, ⟨5, false, []⟩)], resSix⟩, [0]) (by rfl)

/-- Claim C9. Supporting theorem for the code bug: under the interleaving
read-A, read-B, write-A, write-B, the unsynchronized read-modify-write
insert loses thread A's key — the final shared edge set is `[1]` and
does not contain `0`, although the union semantics the claim requires
(equivalently, the inserts run under mutual exclusion, as
`insertKey 1 (insertKey 0 [])`) contains both keys. -/
theorem context_race_loses_edge :
    (runRace 0 1 [RaceOp.readA, RaceOp.readB, RaceOp.writeA, RaceOp.writeB]
        ⟨[], [], []⟩).shared = [1] ∧
    (0 : Nat) ∉ (runRace 0 1
        [RaceOp.readA, RaceOp.readB, RaceOp.writeA, RaceOp.writeB]
        ⟨[], [], []⟩).shared ∧
    (0 : Nat) ∈ insertKey 1 (insertKey 0 ([] : List Nat)) ∧
    (1 : Nat) ∈ insertKey 1 (insertKey 0 ([] : List Nat)) := by decide

theorem runProg_unchanged {qf : Q → St Q R → Res Q R}
    (H : ∀ q st n st1 lg, UnchangedAll st → qf q st = some (n, st1, lg) →
      n.changed = false ∧ UnchangedAll st1) :
    ∀ (prog : ResolverProg Q R) (st : St Q R) (r : R) (es : List Q)
      (st1 : St Q R) (lg : List Q),
      UnchangedAll st → runProg qf prog st = some (r, es, st1, lg) →
      UnchangedAll st1 := by
  intro prog
  induction prog with
  | pure r0 =>
    intro st r es st1 lg hst h
    rw [runProg] at h
    simp only [Option.some.injEq, Prod.mk.injEq] at h
    obtain ⟨_, _, h2, _⟩ := h
    rw [← h2]
    exact hst
  | query p k ih =>
    intro st r es st1 lg hst h
    rw [runProg] at h
    cases h1 : qf p st with
    | none => rw [h1] at h; simp at h
    | some o =>
      obtain ⟨n0, sta, lga⟩ := o
      rw [h1] at h
      dsimp only at h
      cases h2 : runProg qf (k n0.result) sta with
      | none => rw [h2] at h; simp at h
      | some o2 =>
        obtain ⟨r2, es2, stb, lgb⟩ := o2
        rw [h2] at h
        simp only [Option.some.injEq, Prod.mk.injEq] at h
        obtain ⟨_, _, hb, _⟩ := h
        have hsta := (H p st n0 sta lga hst h1).2
        have hstb := ih n0.result sta r2 es2 stb lgb hsta h2
        rw [← hb]
        exact hstb

theorem validateParents_unchanged {qf : Q → St Q R → Res Q R}
    (H : ∀ q st n st1 lg, UnchangedAll st → qf q st = some (n, st1, lg) →
      n.changed = false ∧ UnchangedAll st1) :
    ∀ (ps : List Q) (st : St Q R) (b : Bool) (st1 : St Q R) (lg : List Q),
      UnchangedAll st → validateParents qf ps st = some (b, st1, lg) →
      UnchangedAll st1 := by
  intro ps
  induction ps with
  | nil =>
    intro st b st1 lg hst h
    rw [validateParents] at h
    simp only [Option.some.injEq, Prod.mk.injEq] at h
    obtain ⟨_, h2, _⟩ := h
    rw [← h2]
    exact hst
  | cons p rest ih =>
    intro st b st1 lg hst h
    rw [validateParents] at h
    cases h1 : qf p st with
    | none => rw [h1] at h; simp at h
    | some o =>
      obtain ⟨n0, sta, lga⟩ := o
      rw [h1] at h
      dsimp only at h
      cases h2 : validateParents qf rest sta with
      | none => rw [h2] at h; simp at h
      | some o2 =>
        obtain ⟨b2, stb, lgb⟩ := o2
        rw [h2] at h
        simp only [Option.some.injEq, Prod.mk.injEq] at h
        obtain ⟨_, hb, _⟩ := h
        have hsta := (H p st n0 sta lga hst h1).2
        have hstb := ih sta b2 stb lgb hsta h2
        rw [← hb]
        exact hstb

theorem queryF_unchanged {res : Q → ResolverProg Q R} {old : OldView Q R}
    (hold : ∀ q, (old q).1 = CellView.absent) :
    ∀ (fuel : Nat) (q : Q) (st : St Q R) (n : Node Q R) (st1 : St Q R)
      (lg : List Q),
      UnchangedAll st → queryF res old fuel q st = some (n, st1, lg) →
      n.changed = false ∧ UnchangedAll st1 := by
  intro fuel
  induction fuel with
  | zero => intro q st n st1 lg _ h; simp [queryF] at h
  | succ fuel ih =>
    intro q st n st1 lg hst h
    rw [queryF_succ_eq] at h
    cases hf : findNode st q with
    | some m =>
      rw [hf] at h
      simp only [Option.some.injEq, Prod.mk.injEq] at h
      obtain ⟨h1, h2, _⟩ := h
      constructor
      · rw [← h1]; exact hst _ (findNode_mem hf)
      · rw [← h2]; exact hst
    | none =>
      rw [hf] at h
      cases hr : resolveStep res old (queryF res old fuel) q st with
      | none => rw [hr] at h; simp at h
      | some o =>
        obtain ⟨n0, st0, lg0⟩ := o
        rw [hr] at h
        simp only [Option.some.injEq, Prod.mk.injEq] at h
        obtain ⟨h1, h2, _⟩ := h
        unfold resolveStep at hr
        rw [hold q] at hr
        dsimp only at hr
        obtain ⟨r, es, stx, lgx, hrun, hn, hstx, _⟩ := computeNode_some hr
        have H : ∀ q' st' n' st1' lg', UnchangedAll st' →
            queryF res old fuel q' st' = some (n', st1', lg') →
            n'.changed = false ∧ UnchangedAll st1' :=
          fun q' st' n' st1' lg' hu hq' => ih q' st' n' st1' lg' hu hq'
        have hstx2 : UnchangedAll stx :=
          runProg_unchanged H (res q) st r es stx lgx hst hrun
        have hch : n0.changed = false := by rw [hn]
        constructor
        · rw [← h1]; exact hch
        · rw [← h2]
          intro p hp
          cases List.mem_cons.mp hp with
          | inl hhead => rw [hhead]; exact hch
          | inr htail =>
            rw [hstx] at htail
            exact hstx2 p htail

/-- Claim C10. First-iteration invariant: in an iteration created by
`Graph::new`, whose previous map is empty and never written, every
node that `query` ever places in the current map has
`changed = false`, because `resolve` always takes the no-previous-node
branch (case A). -/
theorem first_iteration_unchanged (res : Q → ResolverProg Q R)
    (fuel : Nat) (q q2 : Q) (out : R × Graph Q R × List Q) (n : Node Q R)
    (h : Graph.query (Graph.mkNew res) fuel q = some out)
    (hmem : (q2, n) ∈ out.2.1.new) :
    n.changed = false := by
  unfold Graph.query at h
  cases hqf : queryF (Graph.mkNew res).resolver
      (stableView (Graph.mkNew res).old) fuel q (Graph.mkNew res).new with
  | none => rw [hqf] at h; simp at h
  | some o =>
    obtain ⟨n0, st1, lg0⟩ := o
    rw [hqf] at h
    simp only [Option.some.injEq] at h
    subst h
    have hold : ∀ p, (stableView ((Graph.mkNew res).old) p).1 =
        CellView.absent := fun p => rfl
    have hst1 : UnchangedAll st1 :=
      (queryF_unchanged hold fuel q (Graph.mkNew res).new n0 st1 lg0
        (fun p hp => absurd hp (List.not_mem_nil p)) hqf).2
    exact hst1 (q2, n) hmem

/-- Claim C10, witness. Querying key `0` on a fresh first iteration
with resolver `resSix` produces the single node `(6, false, [])`,
which indeed has `changed = false`. -/
theorem first_iteration_unchanged_witness :
    (Node.mk 6 false ([] : List Nat)).changed = false :=
  first_iteration_unchanged resSix 1 0 0
    (6, ⟨[(0, ⟨6, false, []⟩)], [], resSix⟩, [0]) ⟨6, false, []⟩
    (by rfl) (by decide)

end QueryGraph
